import Mathlib

/-!
Verification of the iprint depth-tracking and indentation library.

The depth tracker keeps, per thread, a stack of previously observed
stack-pointer values (a `List Nat`, index 0 shallowest, last entry deepest).
A probe with the current stack-pointer value prunes stale entries from the
end, conditionally pushes the current value, and returns length minus one.
The formatter splits a text into lines (following the semantics of the
`lines` iterator of Rust: split at a line feed, with a carriage return
directly before a line feed stripped, and no empty final line for a
trailing line feed), prefixes each line with `4 * depth` spaces and joins
the lines with single line feeds.
-/

namespace IPrint

/-- The pruning loop of `call_depth!`: while the stack is non-empty and its
last element is strictly below the probed pointer value, pop it.  Structural
recursion computing the same result as the source loop; the loop recurrence
is certified by `pruneStack_recurrence` below. -/
def pruneStack (p : Nat) : List Nat → List Nat
  | [] => []
  | a :: rest =>
    match pruneStack p rest with
    | [] => if a < p then [] else [a]
    | b :: t => a :: b :: t

/-- One probe of `call_depth!` with pointer value `p` on stack `s`:
prune, then push `p` unless it is already the last element, then return
the new stack together with its length minus one. -/
def probe (p : Nat) (s : List Nat) : List Nat × Nat :=
  let s1 := pruneStack p s
  let s2 := if s1.getLast? ≠ some p then s1 ++ [p] else s1
  (s2, s2.length - 1)

/-- Run a sequence of probes left to right, returning the final stack and
the list of returned depths. -/
def runProbes : List Nat → List Nat → List Nat × List Nat
  | [], s => (s, [])
  | p :: ps, s =>
    let r := probe p s
    let rest := runProbes ps r.1
    (rest.1, r.2 :: rest.2)

theorem dropWhile_append_nil {f : Nat → Bool} {l1 : List Nat} (l2 : List Nat)
    (h : l1.dropWhile f = []) : (l1 ++ l2).dropWhile f = l2.dropWhile f := by
  induction l1 with
  | nil => rfl
  | cons x xs ih =>
    rw [List.dropWhile_cons] at h
    by_cases hx : f x = true
    · simp only [List.cons_append, List.dropWhile_cons, if_pos hx]
      exact ih (by simpa [hx] using h)
    · simp [hx] at h

theorem dropWhile_append_cons {f : Nat → Bool} {l1 : List Nat} {c : Nat} {u : List Nat}
    (l2 : List Nat) (h : l1.dropWhile f = c :: u) :
    (l1 ++ l2).dropWhile f = c :: u ++ l2 := by
  induction l1 with
  | nil => simp at h
  | cons x xs ih =>
    rw [List.dropWhile_cons] at h
    by_cases hx : f x = true
    · rw [if_pos hx] at h
      simp only [List.cons_append, List.dropWhile_cons, if_pos hx]
      exact ih h
    · rw [if_neg hx] at h
      cases h
      simp only [List.cons_append, List.dropWhile_cons, if_neg hx]

/-- Pruning is removal of the longest suffix of entries strictly below `p`. -/
theorem pruneStack_eq_dropWhile (p : Nat) (s : List Nat) :
    pruneStack p s = (s.reverse.dropWhile (fun x => decide (x < p))).reverse := by
  induction s with
  | nil => rfl
  | cons a rest ih =>
    cases hr : pruneStack p rest with
    | nil =>
      simp only [pruneStack, hr, List.reverse_cons]
      have hnil : rest.reverse.dropWhile (fun x => decide (x < p)) = [] := by
        rw [hr] at ih
        exact List.reverse_eq_nil_iff.mp ih.symm
      rw [dropWhile_append_nil [a] hnil]
      by_cases h : a < p <;> simp [List.dropWhile_cons, h]
    | cons c u =>
      simp only [pruneStack, hr, List.reverse_cons]
      cases hd : rest.reverse.dropWhile (fun x => decide (x < p)) with
      | nil =>
        rw [hd] at ih
        rw [hr] at ih
        simp at ih
      | cons c2 u2 =>
        rw [dropWhile_append_cons [a] hd]
        rw [hr, hd] at ih
        rw [ih]
        simp

/-- The structural `pruneStack` satisfies the recurrence of the source loop:
inspect the last element; pop it and continue when it is strictly below `p`,
stop otherwise or when the stack is empty. -/
theorem pruneStack_recurrence (p : Nat) (s : List Nat) :
    pruneStack p s =
      match s.getLast? with
      | some a => if a < p then pruneStack p s.dropLast else s
      | none => s := by
  induction s using List.reverseRecOn with
  | nil => rfl
  | append_singleton l a _ =>
    rw [pruneStack_eq_dropWhile]
    simp only [List.getLast?_concat, List.dropLast_concat, List.reverse_append,
      List.reverse_cons, List.reverse_nil, List.nil_append, List.cons_append,
      List.dropWhile_cons]
    by_cases h : a < p
    · simp [h, pruneStack_eq_dropWhile]
    · simp [h]

/-- Specification form of one probe, following the wording of the spec:
step 2 prunes the longest suffix of entries strictly below `p` (pop from the
end while the last entry is strictly less), step 3 pushes `p` when the stack
is empty or its last entry differs from `p`, step 4 returns the length of
the resulting stack minus one. -/
def probeSpec (p : Nat) (s : List Nat) : List Nat × Nat :=
  let pruned := (s.reverse.dropWhile (fun x => decide (x < p))).reverse
  let pushed := if pruned = [] ∨ pruned.getLast? ≠ some p then pruned ++ [p] else pruned
  (pushed, pushed.length - 1)

theorem probe_snd_eq (p : Nat) (s : List Nat) :
    (probe p s).2 = (probe p s).1.length - 1 := by
  simp only [probe]

theorem probe_fst_getLast (p : Nat) (s : List Nat) :
    (probe p s).1.getLast? = some p := by
  simp only [probe]
  by_cases h : (pruneStack p s).getLast? = some p
  · simp [h]
  · simp [h, List.getLast?_concat]

theorem probe_fst_ne_nil (p : Nat) (s : List Nat) : (probe p s).1 ≠ [] := by
  intro h
  have := probe_fst_getLast p s
  rw [h] at this
  simp at this

theorem pruneStack_nil_or_getLast (p : Nat) (s : List Nat) :
    pruneStack p s = [] ∨ ∃ a, (pruneStack p s).getLast? = some a ∧ ¬ a < p := by
  rw [pruneStack_eq_dropWhile]
  cases hd : s.reverse.dropWhile (fun x => decide (x < p)) with
  | nil => exact Or.inl rfl
  | cons c u =>
    right
    refine ⟨c, ?_, ?_⟩
    · simp [List.getLast?_reverse]
    · have : (fun x => decide (x < p)) c = false := by
        have hlen : 0 < (s.reverse.dropWhile (fun x => decide (x < p))).length := by
          rw [hd]; simp
        have := List.dropWhile_get_zero_not (fun x => decide (x < p)) s.reverse hlen
        simpa [hd] using this
      simpa using this

theorem pruneStack_length_le (p : Nat) (s : List Nat) :
    (pruneStack p s).length ≤ s.length := by
  rw [pruneStack_eq_dropWhile]
  have h := (List.dropWhile_sublist (l := s.reverse) (fun x => decide (x < p))).length_le
  simpa using h

theorem pruneStack_pairwise (p : Nat) (s : List Nat)
    (h : List.Pairwise (· > ·) s) : List.Pairwise (· > ·) (pruneStack p s) := by
  rw [pruneStack_eq_dropWhile]
  rw [List.pairwise_reverse]
  exact (List.pairwise_reverse.mpr h).sublist
    (List.dropWhile_sublist (fun x => decide (x < p)))

theorem pairwise_getLast_le (l : List Nat) (a : Nat)
    (h : List.Pairwise (· > ·) l) (hl : l.getLast? = some a) :
    ∀ x ∈ l, a ≤ x := by
  intro x hx
  rw [← List.head?_reverse] at hl
  have hrev : List.Pairwise (· < ·) l.reverse := by
    rw [List.pairwise_reverse]
    exact h
  rcases hr : l.reverse with _ | ⟨b, t⟩
  · rw [hr] at hl; simp at hl
  · rw [hr] at hl hrev
    simp only [List.head?_cons, Option.some_inj] at hl
    have hx' : x ∈ b :: t := by
      rw [← hr, List.mem_reverse]
      exact hx
    rcases List.mem_cons.mp hx' with rfl | hmem
    · omega
    · have hbx : b < x := (List.pairwise_cons.mp hrev).1 x hmem
      omega

theorem probe_length_le (p : Nat) (s : List Nat) :
    (probe p s).1.length ≤ s.length + 1 := by
  simp only [probe]
  by_cases h : (pruneStack p s).getLast? = some p
  · simp only [h]
    simp only [ne_eq, not_true_eq_false, if_false]
    exact Nat.le_trans (pruneStack_length_le p s) (Nat.le_succ _)
  · simp only [ne_eq, h, not_false_eq_true, if_true, List.length_append,
      List.length_cons, List.length_nil]
    have := pruneStack_length_le p s
    omega

/-- C1: a probe of `call_depth!` with pointer value `p` first pops entries
from the end of the stack while the last entry is strictly below `p`, then
pushes `p` when the stack is empty or its last entry is not exactly `p`, and
returns the resulting length minus one (zero-based depth). -/
theorem C1_probe_refines_spec (p : Nat) (s : List Nat) :
    probe p s = probeSpec p s := by
  simp only [probe, probeSpec, ← pruneStack_eq_dropWhile]
  by_cases h : (pruneStack p s).getLast? = some p
  · have hne : ¬ pruneStack p s = [] := by
      intro e; rw [e] at h; simp at h
    simp [h, hne]
  · simp [h]

/-- C7: every probe is infallible: the stack at the point of the final
length computation is non-empty, so the subtraction `stack.len() - 1`
never underflows (the returned depth plus one is exactly the length). -/
theorem C7_probe_infallible (p : Nat) (s : List Nat) :
    (probe p s).1 ≠ [] ∧ (probe p s).2 + 1 = (probe p s).1.length := by
  refine ⟨probe_fst_ne_nil p s, ?_⟩
  have hlen : 0 < (probe p s).1.length :=
    List.length_pos.mpr (probe_fst_ne_nil p s)
  rw [probe_snd_eq]
  omega

/-- C8: after a probe with pointer value `p` the stack is non-empty and its
last entry is `p`; moreover a probe preserves the strictly-decreasing
ordering of the stack (index 0 largest, last entry smallest). -/
theorem C8_probe_invariant (p : Nat) (s : List Nat)
    (h : List.Pairwise (· > ·) s) :
    (probe p s).1 ≠ [] ∧ (probe p s).1.getLast? = some p ∧
      List.Pairwise (· > ·) (probe p s).1 := by
  refine ⟨probe_fst_ne_nil p s, probe_fst_getLast p s, ?_⟩
  have hpair := pruneStack_pairwise p s h
  simp only [probe]
  by_cases hc : (pruneStack p s).getLast? = some p
  · simp only [hc]
    simp only [ne_eq, not_true_eq_false, if_false]
    exact hpair
  · simp only [ne_eq, hc, not_false_eq_true, if_true]
    rw [List.pairwise_append]
    refine ⟨hpair, List.pairwise_singleton _ _, ?_⟩
    intro x hx b hb
    have hbp : b = p := List.mem_singleton.mp hb
    rcases pruneStack_nil_or_getLast p s with hnil | ⟨a, hlast, hge⟩
    · rw [hnil] at hx; simp at hx
    · have hax : a ≤ x := pairwise_getLast_le _ a hpair hlast x hx
      have hap : a ≠ p := by
        intro e; rw [e] at hlast; exact hc hlast
      omega

/-- C9: a single probe grows the stack by at most one entry, and the depth
returned by a probe is at most one more than the depth returned by the
probe immediately before it on the same thread. -/
theorem C9_probe_growth_bound (p q : Nat) (s : List Nat) :
    (probe p s).1.length ≤ s.length + 1 ∧
      (probe p ((probe q s).1)).2 ≤ (probe q s).2 + 1 := by
  refine ⟨probe_length_le p s, ?_⟩
  have h1 : 0 < (probe q s).1.length :=
    List.length_pos.mpr (probe_fst_ne_nil q s)
  have h2 : (probe p ((probe q s).1)).1.length ≤ (probe q s).1.length + 1 :=
    probe_length_le p ((probe q s).1)
  rw [probe_snd_eq, probe_snd_eq]
  omega

theorem pruneStack_of_getLast_ge (p a : Nat) (s : List Nat)
    (hl : s.getLast? = some a) (h : ¬ a < p) : pruneStack p s = s := by
  rw [pruneStack_recurrence, hl]
  simp [h]

theorem probe_push_of_getLast_gt (p a : Nat) (s : List Nat)
    (hl : s.getLast? = some a) (hpa : p < a) :
    probe p s = (s ++ [p], s.length) := by
  simp only [probe]
  rw [pruneStack_of_getLast_ge p a s hl (by omega)]
  have hne : s.getLast? ≠ some p := by
    rw [hl]
    intro e
    simp only [Option.some_inj] at e
    omega
  simp [hne]

theorem probe_nil (p : Nat) : probe p [] = ([p], 0) := rfl

theorem runProbes_strict_desc (ps : List Nat) (s : List Nat)
    (hchain : List.Chain' (· > ·) ps)
    (hhead : ∀ a, s.getLast? = some a → ∀ p0, ps.head? = some p0 → p0 < a) :
    (runProbes ps s).2 = (List.range ps.length).map (s.length + ·) := by
  induction ps generalizing s with
  | nil => simp [runProbes]
  | cons p ps ih =>
    have hp : probe p s = (s ++ [p], s.length) := by
      cases hs : s.getLast? with
      | none =>
        have hnil : s = [] := by
          cases s with
          | nil => rfl
          | cons x xs => simp at hs
        subst hnil
        exact probe_nil p
      | some a =>
        exact probe_push_of_getLast_gt p a s hs (hhead a hs p rfl)
    simp only [runProbes, hp]
    have hch : List.Chain' (· > ·) ps := hchain.tail
    have hh : ∀ a, (s ++ [p]).getLast? = some a → ∀ p0, ps.head? = some p0 → p0 < a := by
      intro a ha p0 hp0
      rw [List.getLast?_concat] at ha
      simp only [Option.some_inj] at ha
      subst ha
      cases ps with
      | nil => simp at hp0
      | cons q qs =>
        simp only [List.head?_cons, Option.some_inj] at hp0
        subst hp0
        exact (List.chain'_cons.mp hchain).1
    rw [ih (s ++ [p]) hch hh]
    rw [List.length_cons, List.range_succ_eq_map]
    simp only [List.map_cons, Nat.add_zero, List.map_map, List.length_append,
      List.length_cons, List.length_nil]
    congr 1
    apply List.map_congr_left
    intro i _
    simp only [Function.comp_apply]
    omega

/-- C2: a chain of probes at strictly decreasing pointer values starting
from an empty thread-local stack returns depths 0, 1, ..., N - 1, so the
Nth nested traced call observes depth N - 1 (zero base). -/
theorem C2_monotonic_nesting (ps : List Nat) (h : List.Chain' (· > ·) ps) :
    (runProbes ps []).2 = List.range ps.length := by
  have hrun := runProbes_strict_desc ps [] h (by intro a ha; simp at ha)
  simpa using hrun

/-- Witness for C2 at the concrete chain of pointers 9 > 4 > 3. -/
theorem C2_monotonic_nesting_witness :
    List.Chain' (· > ·) [9, 4, 3] ∧ (runProbes [9, 4, 3] []).2 = List.range 3 :=
  ⟨by simp [List.chain'_cons], C2_monotonic_nesting [9, 4, 3] (by simp [List.chain'_cons])⟩

theorem dropWhile_reverse_of_getLast (s1 : List Nat) (p : Nat) (f : Nat → Bool)
    (hl : s1.getLast? = some p) (hf : f p = false) :
    s1.reverse.dropWhile f = s1.reverse := by
  rw [← List.head?_reverse] at hl
  cases hrev : s1.reverse with
  | nil => rfl
  | cons b t =>
    rw [hrev] at hl
    simp only [List.head?_cons, Option.some_inj] at hl
    rw [List.dropWhile_cons, hl, hf]
    simp

theorem pruneStack_append (q p : Nat) (s1 r : List Nat)
    (hl : s1.getLast? = some p) (hq : ¬ p < q) :
    ∃ r0 : List Nat, pruneStack q (s1 ++ r) = s1 ++ r0 ∧ ∀ x ∈ r0, x ∈ r := by
  rw [pruneStack_eq_dropWhile, List.reverse_append]
  cases hd : r.reverse.dropWhile (fun x => decide (x < q)) with
  | nil =>
    refine ⟨[], ?_, by simp⟩
    rw [dropWhile_append_nil s1.reverse hd]
    rw [dropWhile_reverse_of_getLast s1 p _ hl (by simpa using hq)]
    simp
  | cons c u =>
    refine ⟨(c :: u).reverse, ?_, ?_⟩
    · rw [dropWhile_append_cons s1.reverse hd]
      simp
    · intro x hx
      have hsub := List.dropWhile_sublist (l := r.reverse) (fun x => decide (x < q))
      rw [hd] at hsub
      have hcu : x ∈ c :: u := List.mem_reverse.mp hx
      have hxr : x ∈ r.reverse := hsub.subset hcu
      simpa using hxr

theorem probe_append_below (q p : Nat) (s1 r : List Nat)
    (hl : s1.getLast? = some p) (hq : q < p) (hr : ∀ x ∈ r, x < p) :
    ∃ r1 : List Nat, (probe q (s1 ++ r)).1 = s1 ++ r1 ∧ ∀ x ∈ r1, x < p := by
  obtain ⟨r0, h0, hmem⟩ := pruneStack_append q p s1 r hl (by omega)
  simp only [probe, h0]
  by_cases hc : (s1 ++ r0).getLast? = some q
  · exact ⟨r0, by simp only [ne_eq, hc, not_true_eq_false, if_false],
      fun x hx => hr x (hmem x hx)⟩
  · refine ⟨r0 ++ [q],
      by simp only [ne_eq, hc, not_false_eq_true, if_true, List.append_assoc], ?_⟩
    intro x hx
    rcases List.mem_append.mp hx with hx0 | hx1
    · exact hr x (hmem x hx0)
    · have := List.mem_singleton.mp hx1
      omega

theorem runProbes_append_below (p : Nat) (qs : List Nat) :
    ∀ s1 r : List Nat, s1.getLast? = some p → (∀ q ∈ qs, q < p) →
      (∀ x ∈ r, x < p) →
      ∃ r1, (runProbes qs (s1 ++ r)).1 = s1 ++ r1 ∧ ∀ x ∈ r1, x < p := by
  induction qs with
  | nil =>
    intro s1 r _ _ hr
    exact ⟨r, by simp [runProbes], hr⟩
  | cons q qs ih =>
    intro s1 r hl hqs hr
    obtain ⟨r1, h1, hmem1⟩ := probe_append_below q p s1 r hl (hqs q (by simp)) hr
    simp only [runProbes]
    rw [h1]
    exact ih s1 r1 hl (fun x hx => hqs x (by simp [hx])) hmem1

theorem pruneStack_append_all_below (p : Nat) (s1 r : List Nat)
    (hl : s1.getLast? = some p) (hr : ∀ x ∈ r, x < p) :
    pruneStack p (s1 ++ r) = s1 := by
  rw [pruneStack_eq_dropWhile, List.reverse_append]
  have hnil : r.reverse.dropWhile (fun x => decide (x < p)) = [] := by
    rw [List.dropWhile_eq_nil_iff]
    intro x hx
    simpa using hr x (List.mem_reverse.mp hx)
  rw [dropWhile_append_nil s1.reverse hnil]
  rw [dropWhile_reverse_of_getLast s1 p _ hl (by simp)]
  simp

theorem probe_restore (p : Nat) (s1 r : List Nat)
    (hl : s1.getLast? = some p) (hr : ∀ x ∈ r, x < p) :
    probe p (s1 ++ r) = (s1, s1.length - 1) := by
  simp only [probe]
  rw [pruneStack_append_all_below p s1 r hl hr]
  simp [hl]

/-- C3: if a probe at pointer value `p` returns depth `d` with stack `s1`,
then after any non-empty sequence of probes at values strictly below `p`
(nested traced calls that have since returned), a further probe at `p`
again returns `d` and restores the stack to `s1`. -/
theorem C3_depth_restoration (p d : Nat) (s s1 : List Nat) (qs : List Nat)
    (h : probe p s = (s1, d)) (_hne : qs ≠ []) (hqs : ∀ q ∈ qs, q < p) :
    probe p ((runProbes qs s1).1) = (s1, d) := by
  have hl : s1.getLast? = some p := by
    have hg := probe_fst_getLast p s
    rw [h] at hg
    exact hg
  have hd : d = s1.length - 1 := by
    have hs := probe_snd_eq p s
    rw [h] at hs
    exact hs
  obtain ⟨r1, h1, hr1⟩ := runProbes_append_below p qs s1 [] hl hqs (by simp)
  rw [List.append_nil] at h1
  rw [h1, probe_restore p s1 r1 hl hr1, hd]

/-- Witness for C3: probe at 10 on the empty stack, then probes at 5 and 7,
then probe at 10 again returns the original result. -/
theorem C3_depth_restoration_witness :
    probe 10 [] = ([10], 0) ∧ ([5, 7] : List Nat) ≠ [] ∧
      (∀ q ∈ ([5, 7] : List Nat), q < 10) ∧
      probe 10 ((runProbes [5, 7] [10]).1) = ([10], 0) :=
  ⟨by decide, by decide, by decide,
    C3_depth_restoration 10 0 [] [10] [5, 7] (by decide) (by decide) (by decide)⟩

/-- C4: a probe on the empty (freshly created) thread-local stack returns
the base value 0, and a later probe at the same pointer value, after probes
at strictly smaller pointer values have happened in between, again
returns 0. -/
theorem C4_baseline_depth (p : Nat) (qs : List Nat) (hqs : ∀ q ∈ qs, q < p) :
    (probe p []).2 = 0 ∧ (probe p ((runProbes qs (probe p []).1).1)).2 = 0 := by
  constructor
  · rfl
  · have hl : ([p] : List Nat).getLast? = some p := by simp
    obtain ⟨r1, h1, hr1⟩ := runProbes_append_below p qs [p] [] hl hqs (by simp)
    rw [List.append_nil] at h1
    have hfst : (probe p []).1 = [p] := rfl
    rw [hfst, h1, probe_restore p [p] r1 hl hr1]
    simp

/-- Witness for C4 at pointer value 10 with nested probes at 5 and 7. -/
theorem C4_baseline_depth_witness :
    (∀ q ∈ ([5, 7] : List Nat), q < 10) ∧
      (probe 10 []).2 = 0 ∧ (probe 10 ((runProbes [5, 7] (probe 10 []).1).1)).2 = 0 :=
  ⟨by decide, C4_baseline_depth 10 [5, 7] (by decide)⟩

/-- Split a character list into segments after every line feed, keeping the
line feed at the end of its segment: the `split_inclusive` step of the
`lines` iterator of Rust. -/
def splitInclusiveNl : List Char → List (List Char)
  | [] => []
  | c :: cs =>
    match splitInclusiveNl cs with
    | [] => [[c]]
    | l :: ls => if c = '\n' then [c] :: l :: ls else (c :: l) :: ls

/-- The per-segment map of the `lines` iterator of Rust: strip one trailing
line feed, and when one was stripped also strip one trailing carriage
return. -/
def linesMap (l : List Char) : List Char :=
  if l.getLast? = some '\n' then
    if l.dropLast.getLast? = some '\r' then l.dropLast.dropLast else l.dropLast
  else l

/-- The `lines` iterator of Rust on a character list. -/
def rustLines (s : List Char) : List (List Char) :=
  (splitInclusiveNl s).map linesMap

/-- Join a list of lines with single line feeds: the `join("\\n")` step of
`iformat!`. -/
def joinNl : List (List Char) → List Char
  | [] => []
  | [l] => l
  | l :: l2 :: ls => l ++ '\n' :: joinNl (l2 :: ls)

/-- The body of `iformat!` at a given call depth: prefix every line of the
text with `4 * depth` spaces and join the lines with line feeds. -/
def iformat (depth : Nat) (text : List Char) : List Char :=
  joinNl ((rustLines text).map (fun line => List.replicate (4 * depth) ' ' ++ line))

theorem getLast?_mem_self {l : List Char} {a : Char} (h : l.getLast? = some a) :
    a ∈ l := by
  have hd := List.dropLast_append_getLast? a (Option.mem_def.mpr h)
  rw [← hd]
  simp

theorem splitInclusiveNl_cons (a : Char) (cs : List Char) :
    splitInclusiveNl (a :: cs) =
      match splitInclusiveNl cs with
      | [] => [[a]]
      | l :: ls => if a = '\n' then [a] :: l :: ls else (a :: l) :: ls := rfl

theorem splitInclusiveNl_append_newline (l rest : List Char) (h : '\n' ∉ l) :
    splitInclusiveNl (l ++ '\n' :: rest) = (l ++ ['\n']) :: splitInclusiveNl rest := by
  induction l with
  | nil =>
    simp only [List.nil_append]
    cases hr : splitInclusiveNl rest with
    | nil => simp [splitInclusiveNl_cons, hr]
    | cons m ms => simp [splitInclusiveNl_cons, hr]
  | cons c l ih =>
    have hc : c ≠ '\n' := fun e => h (by simp [e])
    have hl : '\n' ∉ l := fun e => h (List.mem_cons_of_mem _ e)
    have hih := ih hl
    show (match splitInclusiveNl (l ++ '\n' :: rest) with
          | [] => [[c]]
          | m :: ms => if c = '\n' then [c] :: m :: ms else (c :: m) :: ms) =
        ((c :: l) ++ ['\n']) :: splitInclusiveNl rest
    rw [hih]
    simp [hc]

theorem splitInclusiveNl_no_newline (l : List Char) (h : '\n' ∉ l) (hne : l ≠ []) :
    splitInclusiveNl l = [l] := by
  induction l with
  | nil => exact absurd rfl hne
  | cons c cs ih =>
    have hc : c ≠ '\n' := fun e => h (by simp [e])
    have hcs : '\n' ∉ cs := fun e => h (List.mem_cons_of_mem _ e)
    cases cs with
    | nil => rfl
    | cons c2 t =>
      have hih := ih hcs (by simp)
      rw [splitInclusiveNl_cons, hih]
      simp [hc]

theorem linesMap_of_getLast_ne (l : List Char) (h : l.getLast? ≠ some '\n') :
    linesMap l = l := by
  simp [linesMap, h]

theorem linesMap_append_newline (l : List Char) (h : '\r' ∉ l) :
    linesMap (l ++ ['\n']) = l := by
  have h1 : (l ++ ['\n']).getLast? = some '\n' := List.getLast?_concat l
  have h2 : (l ++ ['\n']).dropLast = l := List.dropLast_concat
  simp only [linesMap, h1, if_pos rfl, h2]
  have h3 : l.getLast? ≠ some '\r' := by
    intro e
    exact h (getLast?_mem_self e)
  simp [h3]

theorem splitInclusiveNl_mem_mem (s : List Char) :
    ∀ m ∈ splitInclusiveNl s, ∀ c ∈ m, c ∈ s := by
  induction s with
  | nil => intro m hm; simp [splitInclusiveNl] at hm
  | cons a cs ih =>
    intro m hm c hc
    rw [List.mem_cons]
    cases hr : splitInclusiveNl cs with
    | nil =>
      simp only [splitInclusiveNl_cons, hr] at hm
      simp only [List.mem_singleton] at hm
      subst hm
      left
      exact List.mem_singleton.mp hc
    | cons l ls =>
      by_cases ha : a = '\n'
      · simp only [splitInclusiveNl_cons, hr, if_pos ha] at hm
        rcases List.mem_cons.mp hm with hm1 | hm2
        · subst hm1
          left
          rw [List.mem_singleton.mp hc, ha]
        · right
          exact ih m (by rw [hr]; exact hm2) c hc
      · simp only [splitInclusiveNl_cons, hr, if_neg ha] at hm
        rcases List.mem_cons.mp hm with hm1 | hm2
        · subst hm1
          rcases List.mem_cons.mp hc with hc1 | hc2
          · left; exact hc1
          · right; exact ih l (by rw [hr]; simp) c hc2
        · right
          exact ih m (by rw [hr]; simp [hm2]) c hc

theorem splitInclusiveNl_dropLast_no_newline (s : List Char) :
    ∀ m ∈ splitInclusiveNl s, ∀ c ∈ m.dropLast, c ≠ '\n' := by
  induction s with
  | nil => intro m hm; simp [splitInclusiveNl] at hm
  | cons a cs ih =>
    intro m hm c hc
    cases hr : splitInclusiveNl cs with
    | nil =>
      simp only [splitInclusiveNl_cons, hr, List.mem_singleton] at hm
      subst hm
      simp at hc
    | cons l ls =>
      by_cases ha : a = '\n'
      · simp only [splitInclusiveNl_cons, hr, if_pos ha] at hm
        rcases List.mem_cons.mp hm with hm1 | hm2
        · subst hm1; simp at hc
        · exact ih m (by rw [hr]; exact hm2) c hc
      · simp only [splitInclusiveNl_cons, hr, if_neg ha] at hm
        rcases List.mem_cons.mp hm with hm1 | hm2
        · subst hm1
          cases l with
          | nil => simp at hc
          | cons x xs =>
            rcases List.mem_cons.mp hc with hc1 | hc2
            · rw [hc1]; exact ha
            · exact ih (x :: xs) (by rw [hr]; simp) c hc2
        · exact ih m (by rw [hr]; simp [hm2]) c hc

theorem linesMap_subset (m : List Char) : ∀ c ∈ linesMap m, c ∈ m := by
  intro c hc
  unfold linesMap at hc
  split_ifs at hc
  · exact (List.dropLast_sublist _).subset ((List.dropLast_sublist _).subset hc)
  · exact (List.dropLast_sublist _).subset hc
  · exact hc

theorem rustLines_no_newline_no_cr (s : List Char) (hs : '\r' ∉ s) :
    ∀ l ∈ rustLines s, '\n' ∉ l ∧ '\r' ∉ l := by
  intro l hl
  obtain ⟨m, hm, rfl⟩ := List.mem_map.mp hl
  constructor
  · intro hnl
    unfold linesMap at hnl
    split_ifs at hnl with h1 h2
    · exact (splitInclusiveNl_dropLast_no_newline s m hm '\n'
        ((List.dropLast_sublist _).subset hnl)) rfl
    · exact (splitInclusiveNl_dropLast_no_newline s m hm '\n' hnl) rfl
    · cases hml : m.getLast? with
      | none =>
        have hmnil : m = [] := List.getLast?_eq_none_iff.mp hml
        rw [hmnil] at hnl
        simp at hnl
      | some a =>
        have hd := List.dropLast_append_getLast? a (Option.mem_def.mpr hml)
        rw [← hd] at hnl
        rcases List.mem_append.mp hnl with hx | hx
        · exact (splitInclusiveNl_dropLast_no_newline s m hm '\n' hx) rfl
        · have hna : '\n' = a := List.mem_singleton.mp hx
          rw [← hna] at hml
          exact h1 hml
  · intro hrl
    exact hs (splitInclusiveNl_mem_mem s m hm '\r' (linesMap_subset m '\r' hrl))

theorem splitInclusiveNl_getLast (s : List Char) (h : s ≠ []) :
    ∃ m, (splitInclusiveNl s).getLast? = some m ∧ m ≠ [] ∧
      m.getLast? = s.getLast? := by
  induction s with
  | nil => exact absurd rfl h
  | cons a cs ih =>
    cases cs with
    | nil => exact ⟨[a], rfl, by simp, rfl⟩
    | cons b t =>
      obtain ⟨m, hm, hmne, hml⟩ := ih (by simp)
      obtain ⟨l, ls, hls⟩ : ∃ l ls, splitInclusiveNl (b :: t) = l :: ls := by
        cases hsp : splitInclusiveNl (b :: t) with
        | nil => rw [hsp] at hm; simp at hm
        | cons l ls => exact ⟨l, ls, rfl⟩
      rw [hls] at hm
      by_cases ha : a = '\n'
      · refine ⟨m, ?_, hmne, ?_⟩
        · rw [splitInclusiveNl_cons, hls]
          simp only [if_pos ha]
          rw [List.getLast?_cons_cons]
          exact hm
        · rw [List.getLast?_cons_cons]
          exact hml
      · cases ls with
        | nil =>
          have hml2 : m = l := by
            simp only [List.getLast?_singleton, Option.some_inj] at hm
            exact hm.symm
          subst hml2
          refine ⟨a :: m, ?_, by simp, ?_⟩
          · rw [splitInclusiveNl_cons, hls]
            simp [ha]
          · rw [List.getLast?_cons_cons]
            cases m with
            | nil => exact absurd rfl hmne
            | cons x xs =>
              rw [List.getLast?_cons_cons]
              exact hml
        | cons l2 ls2 =>
          refine ⟨m, ?_, hmne, ?_⟩
          · rw [splitInclusiveNl_cons, hls]
            simp only [if_neg ha]
            rw [List.getLast?_cons_cons]
            rw [List.getLast?_cons_cons] at hm
            exact hm
          · rw [List.getLast?_cons_cons]
            exact hml

theorem rustLines_getLast_ne_nil (s : List Char) (h : s.getLast? ≠ some '\n') :
    (rustLines s).getLast? ≠ some ([] : List Char) := by
  by_cases hne : s = []
  · subst hne
    simp [rustLines, splitInclusiveNl]
  · obtain ⟨m, hm, hmne, hml⟩ := splitInclusiveNl_getLast s hne
    unfold rustLines
    rw [List.getLast?_map, hm]
    have hmm : linesMap m = m := linesMap_of_getLast_ne m (by rw [hml]; exact h)
    simp only [Option.map_some', hmm]
    intro e
    exact hmne (Option.some_inj.mp e)

theorem rustLines_joinNl : ∀ lns : List (List Char),
    (∀ l ∈ lns, '\n' ∉ l ∧ '\r' ∉ l) → lns.getLast? ≠ some [] →
    rustLines (joinNl lns) = lns := by
  intro lns
  induction lns with
  | nil => intro _ _; rfl
  | cons l lns ih =>
    intro h hlast
    cases lns with
    | nil =>
      have hn : '\n' ∉ l := (h l (by simp)).1
      have hne : l ≠ [] := by
        intro e
        rw [e] at hlast
        simp at hlast
      show rustLines l = [l]
      unfold rustLines
      rw [splitInclusiveNl_no_newline l hn hne]
      have hmm : linesMap l = l :=
        linesMap_of_getLast_ne l (fun e => hn (getLast?_mem_self e))
      rw [List.map_cons, List.map_nil, hmm]
    | cons l2 ls =>
      have h1 := h l (by simp)
      have hrest : ∀ x ∈ l2 :: ls, '\n' ∉ x ∧ '\r' ∉ x :=
        fun x hx => h x (by simp [hx])
      have hlast2 : (l2 :: ls).getLast? ≠ some [] := by
        rw [← List.getLast?_cons_cons (a := l)]
        exact hlast
      have hih := ih hrest hlast2
      unfold rustLines at hih
      show rustLines (l ++ '\n' :: joinNl (l2 :: ls)) = l :: l2 :: ls
      unfold rustLines
      rw [splitInclusiveNl_append_newline _ _ h1.1, List.map_cons,
        linesMap_append_newline l h1.2, hih]

/-- Counterexample to C5 as stated: at depth 0 the prefix is empty, so the
claim (no character altered, no trailing-newline normalization beyond the
original) forces the output to equal the input, yet `iformat!` drops the
trailing line feed of the input text. -/
theorem C5_counterexample :
    iformat 0 ("a\n".toList) = "a".toList ∧
      iformat 0 ("a\n".toList) ≠ "a\n".toList := by
  constructor
  · decide
  · decide

/-- C5 (amended): for every input text that contains no carriage return and
does not end in a line feed, `iformat!` at depth `D` produces exactly the
lines of the input, in order, each prefixed with `4 * D` spaces and
otherwise unaltered. -/
theorem C5_formatter_line_preservation (text : List Char) (D : Nat)
    (h1 : '\r' ∉ text) (h2 : text.getLast? ≠ some '\n') :
    rustLines (iformat D text) =
      (rustLines text).map (fun l => List.replicate (4 * D) ' ' ++ l) := by
  unfold iformat
  apply rustLines_joinNl
  · intro l hl
    obtain ⟨l0, hl0, rfl⟩ := List.mem_map.mp hl
    obtain ⟨hn, hr⟩ := rustLines_no_newline_no_cr text h1 l0 hl0
    constructor
    · intro hmem
      rcases List.mem_append.mp hmem with hx | hx
      · exact absurd (List.eq_of_mem_replicate hx) (by decide)
      · exact hn hx
    · intro hmem
      rcases List.mem_append.mp hmem with hx | hx
      · exact absurd (List.eq_of_mem_replicate hx) (by decide)
      · exact hr hx
  · cases hcase : (rustLines text).getLast? with
    | none =>
      rw [List.getLast?_map, hcase]
      simp
    | some m =>
      have hm := rustLines_getLast_ne_nil text h2
      rw [hcase] at hm
      have hmne : m ≠ [] := fun e => hm (by rw [e])
      rw [List.getLast?_map, hcase]
      simp only [Option.map_some']
      intro e
      rcases List.append_eq_nil.mp (Option.some_inj.mp e) with ⟨_, hnil⟩
      exact hmne hnil

/-- Witness for C5 (amended) at a concrete two-line text and depth 2. -/
theorem C5_formatter_line_preservation_witness :
    ('\r' ∉ "ab\n\ncd".toList) ∧ ("ab\n\ncd".toList.getLast? ≠ some '\n') ∧
      rustLines (iformat 2 ("ab\n\ncd".toList)) =
        (rustLines ("ab\n\ncd".toList)).map
          (fun l => List.replicate (4 * 2) ' ' ++ l) :=
  ⟨by decide, by decide,
    C5_formatter_line_preservation ("ab\n\ncd".toList) 2 (by decide) (by decide)⟩

/-- Model of the helper `level2` of the test module: one probe at pointer
value `p2`, then `iformat` of the text level2 at the returned depth. -/
def level2Model (p2 : Nat) (s : List Nat) : List Char × List Nat :=
  let r := probe p2 s
  (iformat r.2 ("level2".toList), r.1)

/-- Model of the helper `level1` of the test module: probe and format
level1, call `level2`, probe and format level1 again, and concatenate with
line feeds; the last two components record the two depths observed inside
`level1`. -/
def level1Model (p1 p2 : Nat) (s : List Nat) :
    List Char × List Nat × Nat × Nat :=
  let r1 := probe p1 s
  let t1 := iformat r1.2 ("level1".toList)
  let l2 := level2Model p2 r1.1
  let r3 := probe p1 l2.2
  let t3 := iformat r3.2 ("level1".toList)
  (t1 ++ '\n' :: (l2.1 ++ '\n' :: t3), r3.1, r1.2, r3.2)

/-- C6: in the test scenario, with the probe of `level2` at a deeper
(numerically smaller) pointer than the probes of `level1`, running `level1`
from the empty stack produces exactly the expected string, and the two
probes inside `level1` report the identical depth. -/
theorem C6_concrete_scenario (p1 p2 : Nat) (h : p2 < p1) :
    (level1Model p1 p2 []).1 = "level1\n    level2\nlevel1".toList ∧
      (level1Model p1 p2 []).2.2.1 = (level1Model p1 p2 []).2.2.2 := by
  have h1 : probe p1 [] = ([p1], 0) := rfl
  have h2 : probe p2 [p1] = ([p1, p2], 1) := by
    simp only [probe]
    rw [pruneStack_of_getLast_ge p2 p1 [p1] (by simp) (by omega)]
    have hne : ([p1] : List Nat).getLast? ≠ some p2 := by
      simp only [List.getLast?_singleton, ne_eq, Option.some_inj]
      omega
    have hne2 : p1 ≠ p2 := by omega
    simp [hne, hne2]
  have h3 : probe p1 [p1, p2] = ([p1], 0) := by
    have hpr : pruneStack p1 [p1, p2] = [p1] :=
      pruneStack_append_all_below p1 [p1] [p2] (by simp)
        (by intro x hx; rcases List.mem_singleton.mp hx with rfl; omega)
    simp only [probe, hpr]
    simp
  simp only [level1Model, level2Model, h1, h2, h3]
  constructor
  · decide
  · trivial

/-- Model of the thread-local `STACK` declaration: each thread identifier
owns its own stack, and a probe on thread `t` reads and writes only the
stack of `t`. -/
def sysProbe (t : Nat) (p : Nat) (m : Nat → List Nat) :
    (Nat → List Nat) × Nat :=
  (fun u => if u = t then (probe p (m t)).1 else m u, (probe p (m t)).2)

/-- C10: thread isolation: a probe on thread `t` leaves the stack of every
other thread unchanged, and its returned depth and resulting stack depend
only on the stack of `t`, never on the stacks of other threads. -/
theorem C10_thread_isolation (t t2 p : Nat) (m m2 : Nat → List Nat)
    (hne : t2 ≠ t) (hsame : m t = m2 t) :
    (sysProbe t p m).1 t2 = m t2 ∧
      (sysProbe t p m).2 = (sysProbe t p m2).2 ∧
      (sysProbe t p m).1 t = (sysProbe t p m2).1 t := by
  refine ⟨?_, ?_, ?_⟩ <;> simp [sysProbe, hne, hsame]

/-- Witness for C10: threads 0 and 1, where the two system states agree on
thread 0 but differ on thread 1. -/
theorem C10_thread_isolation_witness :
    ((1 : Nat) ≠ 0) ∧
      ((fun u : Nat => if u = 1 then [9] else ([] : List Nat)) 0 =
        (fun _ : Nat => ([] : List Nat)) 0) ∧
      ((sysProbe 0 5 (fun u => if u = 1 then [9] else [])).1 1 =
          (fun u : Nat => if u = 1 then [9] else ([] : List Nat)) 1 ∧
        (sysProbe 0 5 (fun u => if u = 1 then [9] else [])).2 =
          (sysProbe 0 5 (fun _ => [])).2 ∧
        (sysProbe 0 5 (fun u => if u = 1 then [9] else [])).1 0 =
          (sysProbe 0 5 (fun _ => [])).1 0) :=
  ⟨by decide, rfl, C10_thread_isolation 0 1 5 _ _ (by decide) rfl⟩

/-- Witness for C6 at the concrete pointer values 2 (level1) and 1
(level2). -/
theorem C6_concrete_scenario_witness :
    (1 : Nat) < 2 ∧
      ((level1Model 2 1 []).1 = "level1\n    level2\nlevel1".toList ∧
        (level1Model 2 1 []).2.2.1 = (level1Model 2 1 []).2.2.2) :=
  ⟨by decide, C6_concrete_scenario 2 1 (by decide)⟩

/-- Witness for C8 on the strictly decreasing stack [9, 6, 2] probed
at 4. -/
theorem C8_probe_invariant_witness :
    List.Pairwise (· > ·) [9, 6, 2] ∧
      ((probe 4 [9, 6, 2]).1 ≠ [] ∧ (probe 4 [9, 6, 2]).1.getLast? = some 4 ∧
        List.Pairwise (· > ·) (probe 4 [9, 6, 2]).1) :=
  ⟨by decide, C8_probe_invariant 4 [9, 6, 2] (by decide)⟩

end IPrint
